import Mathlib

/-!
Verification of the membase tiered-memory core against its specification.

We shallowly embed the Python sources:
  membase/memory/message.py      (Message, to_dict, from_dict)
  membase/memory/serialize.py    (serialize, deserialize)
  membase/memory/sqlite_memory.py (SqliteMemory add/get/delete/size)
  membase/memory/lt_memory.py    (LTMemory._background_task and the two
                                  summarization wrappers)
  membase/storage/hub.py         (Client upload queue and bucket defaulting)

Modelling conventions:
  - JSON documents are the inductive `JValue`; `json.dumps`/`json.loads`
    are modelled as the identity on documents (the text codec of the json
    library is not re-verified here).
  - Python object identity (used by the `seen_objects` set of
    `Message.to_dict`) is modelled for the CPython singleton scalars,
    which are identity-shared wherever they occur: `None`, the two
    booleans, and the small integers in the cache range `-5..256` each
    carry an identity key, and the serializer stringifies a value whose
    key was already seen.  Equal strings may or may not be shared objects
    in CPython, but the seen branch returns `str(obj)`, which is the
    string itself, so sharing of strings is observationally irrelevant
    and strings carry no key.  Aliasing of containers or of non-cached
    integers (the same object stored in two places) has no counterpart in
    tree-shaped values and is outside the model.
  - sqlite rows are modelled as lists kept in `created_at` order; we
    idealize `created_at` as strictly increasing per insert, so
    `ORDER BY created_at DESC` is list reversal.  `INSERT OR REPLACE` on
    the primary key `id` removes any older row with the same id and
    appends the fresh row (the replacement gets a fresh `created_at`).
  - background threads are modelled as explicit state-passing functions; a
    Python exception escaping the thread body is a `crashed` flag.
-/

namespace Membase

/-- JSON-like values: strings, integers, booleans, null, arrays, objects.
Floats are not needed by any claim and are omitted. -/
inductive JValue where
  | s (v : String)
  | i (v : Int)
  | b (v : Bool)
  | null
  | arr (xs : List JValue)
  | obj (kvs : List (String × JValue))

/-- Lookup of a key in a JSON object association list (first match, as in a
Python dict where keys are unique). -/
def jlookup (kvs : List (String × JValue)) (k : String) : Option JValue :=
  match kvs with
  | [] => none
  | (k', v) :: rest => if k' = k then some v else jlookup rest k

/-- Insertion into a JSON object: overwrite an existing key in place, else
append (Python dict assignment). -/
def jinsert (kvs : List (String × JValue)) (k : String) (v : JValue) :
    List (String × JValue) :=
  match kvs with
  | [] => [(k, v)]
  | (k', v') :: rest =>
      if k' = k then (k, v) :: rest else (k', v') :: jinsert rest k v

/-- Extract a JSON string. -/
def asStr : JValue → Option String
  | .s v => some v
  | _ => none

/-- Extract a JSON integer. -/
def asInt : JValue → Option Int
  | .i v => some v
  | _ => none

/-- The membase `Message`.  In Python `content`, `url` and `metadata` are
dynamically typed; we carry them as JSON documents.  `id`, `name`,
`timestamp`, `role` and `type` are strings in every reachable state of the
program and are modelled as such. -/
structure Message where
  id : String
  name : String
  content : JValue
  role : String
  url : JValue
  metadata : JValue
  timestamp : String
  type : String

/-- The roles accepted by the `role` setter of `Message`. -/
def validRoles : List String := ["system", "user", "assistant"]

/-- The types accepted by the `type` setter of `Message`. -/
def validTypes : List String := ["stm", "ltm", "profile"]

/-- A message whose `role` and `type` setters accepted their values (any
`Message` object constructed by the Python code satisfies this). -/
def Message.wf (m : Message) : Prop :=
  m.role ∈ validRoles ∧ m.type ∈ validTypes

/-- Identity key of a CPython singleton scalar: `id(None)`, `id(True)`,
`id(False)`, and the ids of the cached small integers are the same object
id at every occurrence, so the `seen_objects` set of `Message.to_dict`
recognizes a repeat. -/
inductive IdKey where
  | knull
  | kbool (b : Bool)
  | kint (v : Int)
deriving DecidableEq

mutual

/-- Embedding of `_serialize_with_cycle_detection` from
`Message.to_dict`, with the `seen_objects` set threaded through as the
list of identity keys met so far.  A singleton scalar whose key is
already in the set is returned as `str(obj)` (the Python text `None`,
`True`, `False`, or the decimal digits) and the set is unchanged;
otherwise its key is added and the scalar passes through.  Strings carry
no key: whether CPython shares two equal string objects or not, the seen
branch would return `str(obj)`, the string itself.  Lists and dicts are
fresh tree nodes, never seen before, and recurse. -/
def serCycle (seen : List IdKey) : JValue → JValue × List IdKey
  | .s v => (.s v, seen)
  | .i v =>
      if -5 ≤ v ∧ v ≤ 256 then
        if IdKey.kint v ∈ seen then (.s (toString v), seen)
        else (.i v, .kint v :: seen)
      else (.i v, seen)
  | .b b =>
      if IdKey.kbool b ∈ seen then (.s (if b then "True" else "False"), seen)
      else (.b b, .kbool b :: seen)
  | .null =>
      if IdKey.knull ∈ seen then (.s "None", seen)
      else (.null, .knull :: seen)
  | .arr xs =>
      let r := serCycleList seen xs
      (.arr r.1, r.2)
  | .obj kvs =>
      let r := serCycleKVs seen kvs
      (.obj r.1, r.2)

/-- List part of `serCycle`, threading the seen set left to right. -/
def serCycleList (seen : List IdKey) : List JValue → List JValue × List IdKey
  | [] => ([], seen)
  | x :: xs =>
      let r1 := serCycle seen x
      let r2 := serCycleList r1.2 xs
      (r1.1 :: r2.1, r2.2)

/-- Object part of `serCycle` (dict keys are already strings). -/
def serCycleKVs (seen : List IdKey) :
    List (String × JValue) → List (String × JValue) × List IdKey
  | [] => ([], seen)
  | (k, v) :: rest =>
      let r1 := serCycle seen v
      let r2 := serCycleKVs r1.2 rest
      ((k, r1.1) :: r2.1, r2.2)

end

mutual

/-- The identity keys of a value, in serialization traversal order. -/
def keysOf : JValue → List IdKey
  | .s _ => []
  | .i v => if -5 ≤ v ∧ v ≤ 256 then [.kint v] else []
  | .b b => [.kbool b]
  | .null => [.knull]
  | .arr xs => keysOfList xs
  | .obj kvs => keysOfKVs kvs

/-- List part of `keysOf`. -/
def keysOfList : List JValue → List IdKey
  | [] => []
  | x :: xs => keysOf x ++ keysOfList xs

/-- Object part of `keysOf`. -/
def keysOfKVs : List (String × JValue) → List IdKey
  | [] => []
  | (_, v) :: rest => keysOf v ++ keysOfKVs rest

end

/-- Embedding of `Message.to_dict`: one `seen_objects` set is shared
across all eight serialized attributes, threaded left to right.  The
traversal order of the Python attribute set is arbitrary (a `set`
literal); the model fixes the order of the source literal — `id`, `name`,
`content`, `role`, `url`, `metadata`, `timestamp`, `type`.  Which
occurrence of a repeated singleton survives depends on that order; that
some occurrence is stringified does not. -/
def Message.toDict (m : Message) : List (String × JValue) :=
  let r1 := serCycle [] (.s m.id)
  let r2 := serCycle r1.2 (.s m.name)
  let r3 := serCycle r2.2 m.content
  let r4 := serCycle r3.2 (.s m.role)
  let r5 := serCycle r4.2 m.url
  let r6 := serCycle r5.2 m.metadata
  let r7 := serCycle r6.2 (.s m.timestamp)
  let r8 := serCycle r7.2 (.s m.type)
  [ ("__module__", .s "membase.memory.message"),
    ("__name__", .s "Message"),
    ("id", r1.1),
    ("name", r2.1),
    ("content", r3.1),
    ("role", r4.1),
    ("url", r5.1),
    ("metadata", r6.1),
    ("timestamp", r7.1),
    ("type", r8.1) ]

/-- The key set `Message.from_dict` asserts on its input: the serialized
attributes plus the two type tags. -/
def expectedKeys : List String :=
  ["id", "name", "content", "role", "url", "metadata", "timestamp", "type",
   "__module__", "__name__"]

/-- Python set equality of key sets (mutual containment). -/
def keySetEq (ks : List String) : Bool :=
  expectedKeys.all (fun k => ks.contains k) &&
    ks.all (fun k => expectedKeys.contains k)

/-- Embedding of `Message.from_dict`.  `none` models an exception: the key
set assertion, the module and class name assertions, and the `role` and
`type` setter validations all raise on bad input. -/
def Message.fromDict (kvs : List (String × JValue)) : Option Message :=
  if keySetEq (kvs.map Prod.fst) then
    match jlookup kvs "__module__", jlookup kvs "__name__" with
    | some (.s md), some (.s nm) =>
      if md = "membase.memory.message" && nm = "Message" then
        match jlookup kvs "id", jlookup kvs "name", jlookup kvs "content",
              jlookup kvs "role", jlookup kvs "url", jlookup kvs "metadata",
              jlookup kvs "timestamp", jlookup kvs "type" with
        | some (.s i), some (.s n), some c, some (.s r), some u, some mt,
          some (.s ts), some (.s ty) =>
          if validRoles.contains r && validTypes.contains ty then
            some ⟨i, n, c, r, u, mt, ts, ty⟩
          else none
        | _, _, _, _, _, _, _, _ => none
      else none
    | _, _ => none
  else none

/-- Embedding of `serialize` applied to a `Message`: `json.dumps` cannot
encode the object, calls `_default_serialize`, which returns `to_dict`;
the resulting JSON document is the serialized form. -/
def serializeMsg (m : Message) : JValue := .obj m.toDict

mutual

/-- A JSON value is tag-free when no object inside it carries both the
`__module__` and `__name__` keys.  On such values the `object_hook` of
`deserialize` is the identity; on a tagged object it either substitutes a
non-JSON object or raises. -/
def tagFree : JValue → Bool
  | .s _ => true
  | .i _ => true
  | .b _ => true
  | .null => true
  | .arr xs => tagFreeList xs
  | .obj kvs =>
      !((kvs.map Prod.fst).contains "__module__" &&
        (kvs.map Prod.fst).contains "__name__") && tagFreeKVs kvs

/-- List part of `tagFree`. -/
def tagFreeList : List JValue → Bool
  | [] => true
  | x :: xs => tagFree x && tagFreeList xs

/-- Object part of `tagFree`. -/
def tagFreeKVs : List (String × JValue) → Bool
  | [] => true
  | (_, v) :: rest => tagFree v && tagFreeKVs rest

end

/-- Embedding of `deserialize` on a document that serializes one Message:
`json.loads` applies `_deserialize_hook` to every object bottom-up.  A
nested tagged object would be replaced or raise (modelled as `none`); on
tag-free nested values the hook is the identity, and the top-level object
carrying the Message tags goes through `Message.from_dict`. -/
def deserializeMsg (j : JValue) : Option Message :=
  match j with
  | .obj kvs =>
      if (kvs.map (fun kv => tagFree kv.2)).all (fun x => x) then
        Message.fromDict kvs
      else none
  | _ => none

theorem serCycle_str (seen : List IdKey) (w : String) :
    serCycle seen (.s w) = (.s w, seen) := rfl

mutual

/-- On a value none of whose identity keys repeat or were seen before,
the serializer is the identity, and it extends the seen set by exactly
the keys of the value. -/
theorem serCycle_fresh : ∀ (v : JValue) (seen : List IdKey),
    (keysOf v).Nodup → (∀ k ∈ keysOf v, k ∉ seen) →
    serCycle seen v = (v, (keysOf v).reverse ++ seen)
  | .s _, seen, _, _ => rfl
  | .i v, seen, _, hdisj => by
      by_cases h : -5 ≤ v ∧ v ≤ 256
      · have hk : IdKey.kint v ∉ seen := hdisj _ (by simp [keysOf, h])
        simp [serCycle, keysOf, h, hk]
      · simp [serCycle, keysOf, h]
  | .b b, seen, _, hdisj => by
      have hk : IdKey.kbool b ∉ seen := hdisj _ (by simp [keysOf])
      simp [serCycle, keysOf, hk]
  | .null, seen, _, hdisj => by
      have hk : IdKey.knull ∉ seen := hdisj _ (by simp [keysOf])
      simp [serCycle, keysOf, hk]
  | .arr xs, seen, hnd, hdisj => by
      have h := serCycleList_fresh xs seen (by simpa [keysOf] using hnd)
        (by simpa [keysOf] using hdisj)
      simp [serCycle, keysOf, h]
  | .obj kvs, seen, hnd, hdisj => by
      have h := serCycleKVs_fresh kvs seen (by simpa [keysOf] using hnd)
        (by simpa [keysOf] using hdisj)
      simp [serCycle, keysOf, h]

/-- List part of `serCycle_fresh`. -/
theorem serCycleList_fresh : ∀ (xs : List JValue) (seen : List IdKey),
    (keysOfList xs).Nodup → (∀ k ∈ keysOfList xs, k ∉ seen) →
    serCycleList seen xs = (xs, (keysOfList xs).reverse ++ seen)
  | [], seen, _, _ => rfl
  | x :: xs, seen, hnd, hdisj => by
      rw [keysOfList] at hnd hdisj
      obtain ⟨h1, h2, hdis⟩ := List.nodup_append.mp hnd
      have e1 := serCycle_fresh x seen h1
        (fun k hk => hdisj k (List.mem_append_left _ hk))
      have e2 := serCycleList_fresh xs ((keysOf x).reverse ++ seen) h2
        (by
          intro k hk hmem
          rcases List.mem_append.mp hmem with hm | hm
          · exact hdis (List.mem_reverse.mp hm) hk
          · exact hdisj k (List.mem_append_right _ hk) hm)
      simp [serCycleList, keysOfList, e1, e2, List.reverse_append,
        List.append_assoc]

/-- Object part of `serCycle_fresh`. -/
theorem serCycleKVs_fresh : ∀ (kvs : List (String × JValue))
    (seen : List IdKey),
    (keysOfKVs kvs).Nodup → (∀ k ∈ keysOfKVs kvs, k ∉ seen) →
    serCycleKVs seen kvs = (kvs, (keysOfKVs kvs).reverse ++ seen)
  | [], seen, _, _ => rfl
  | (s, v) :: rest, seen, hnd, hdisj => by
      rw [keysOfKVs] at hnd hdisj
      obtain ⟨h1, h2, hdis⟩ := List.nodup_append.mp hnd
      have e1 := serCycle_fresh v seen h1
        (fun k hk => hdisj k (List.mem_append_left _ hk))
      have e2 := serCycleKVs_fresh rest ((keysOf v).reverse ++ seen) h2
        (by
          intro k hk hmem
          rcases List.mem_append.mp hmem with hm | hm
          · exact hdis (List.mem_reverse.mp hm) hk
          · exact hdisj k (List.mem_append_right _ hk) hm)
      simp [serCycleKVs, keysOfKVs, e1, e2, List.reverse_append,
        List.append_assoc]

end

/-- C7, counterexample: the message with the constructor defaults
`url=None, metadata=None` does not round-trip.  The `seen_objects` set of
`to_dict` is shared across the eight attributes and `None` is one
identity-shared object, so whichever of the two fields is serialized
second is stringified to the text `None`; `deserialize` then rebuilds a
message whose field holds that string, not `None`.  Which of `url` and
`metadata` is corrupted depends on the arbitrary iteration order of the
attribute set; that the round-trip fails does not. -/
theorem c7_roundtrip_counterexample :
    ¬(deserializeMsg (serializeMsg
      ⟨"id0", "acct", .s "hello", "user", .null, .null, "2025-01-01",
        "stm"⟩) =
      some ⟨"id0", "acct", .s "hello", "user", .null, .null, "2025-01-01",
        "stm"⟩) := by
  intro h
  have h' : some
      (⟨"id0", "acct", .s "hello", "user", .null, .s "None", "2025-01-01",
        "stm"⟩ : Message) =
      some ⟨"id0", "acct", .s "hello", "user", .null, .null, "2025-01-01",
        "stm"⟩ := h
  have h2 := congrArg Message.metadata (Option.some.inj h')
  exact JValue.noConfusion h2

/-- C7, amended: for every message with valid role and type whose
content, url and metadata are tag-free and repeat no identity-shared
scalar (no `None`, boolean, or cached small integer occurs twice across
the serialized fields), deserializing the serialized form reconstructs
the message in every serialized field (id, name, content, role, url,
metadata, timestamp, type). -/
theorem c7_roundtrip_amended (m : Message) (hwf : m.wf)
    (hc : tagFree m.content = true) (hu : tagFree m.url = true)
    (hm : tagFree m.metadata = true)
    (hfresh : (keysOf m.content ++ keysOf m.url ++ keysOf m.metadata).Nodup) :
    deserializeMsg (serializeMsg m) = some m := by
  obtain ⟨hr, ht⟩ := hwf
  have hr' : validRoles.contains m.role = true := by
    simpa using hr
  have ht' : validTypes.contains m.type = true := by
    simpa using ht
  obtain ⟨hAB, hC, hdisjABC⟩ := List.nodup_append.mp hfresh
  obtain ⟨hA, hB, hdisjAB⟩ := List.nodup_append.mp hAB
  have e3 : serCycle [] m.content =
      (m.content, (keysOf m.content).reverse) := by
    have := serCycle_fresh m.content [] hA (by simp)
    simpa using this
  have e5 : serCycle ((keysOf m.content).reverse) m.url =
      (m.url, (keysOf m.url).reverse ++ (keysOf m.content).reverse) :=
    serCycle_fresh m.url _ hB
      (fun k hk hmem => (hdisjAB (List.mem_reverse.mp hmem)) hk)
  have e6 : serCycle ((keysOf m.url).reverse ++ (keysOf m.content).reverse)
      m.metadata =
      (m.metadata, (keysOf m.metadata).reverse ++
        ((keysOf m.url).reverse ++ (keysOf m.content).reverse)) :=
    serCycle_fresh m.metadata _ hC
      (by
        intro k hk hmem
        rcases List.mem_append.mp hmem with hm | hm
        · exact hdisjABC
            (List.mem_append_right _ (List.mem_reverse.mp hm)) hk
        · exact hdisjABC
            (List.mem_append_left _ (List.mem_reverse.mp hm)) hk)
  have htd : Message.toDict m =
      [ ("__module__", .s "membase.memory.message"),
        ("__name__", .s "Message"),
        ("id", .s m.id),
        ("name", .s m.name),
        ("content", m.content),
        ("role", .s m.role),
        ("url", m.url),
        ("metadata", m.metadata),
        ("timestamp", .s m.timestamp),
        ("type", .s m.type) ] := by
    simp only [Message.toDict, serCycle_str, e3, e5, e6]
  show deserializeMsg (.obj (Message.toDict m)) = some m
  rw [htd]
  simp [deserializeMsg, hc, hu, hm, Message.fromDict, keySetEq, expectedKeys,
    jlookup, hr', ht', tagFree, hr, ht]

/-- Witness for the amended C7 at a concrete ltm-tier message whose
singleton scalars are one `None` and one occurrence of the integer 0. -/
theorem c7_roundtrip_amended_witness :
    deserializeMsg (serializeMsg
      ⟨"id0", "acct", .s "summary", "assistant", .null,
        .obj [("memory_index", .i 0)], "2025-01-01", "ltm"⟩) =
      some ⟨"id0", "acct", .s "summary", "assistant", .null,
        .obj [("memory_index", .i 0)], "2025-01-01", "ltm"⟩ :=
  c7_roundtrip_amended _ ⟨by simp [validRoles], by simp [validTypes]⟩
    rfl rfl rfl (by decide)

/-!
The sqlite-backed message store (`membase/memory/sqlite_memory.py`).

One table per tier (`memories_stm`, `memories_ltm`, `memories_profile`),
each row `(id PRIMARY KEY, conversation_id, content, memory_index,
upload_status, created_at)`.  A table is a list of rows in `created_at`
(commit) order.  `Row.msg` denotes the JSON document stored in the
`content` column: the message with the `conversation` and `memory_index`
keys injected into its metadata by `add`.  (The stored dict also carries a
top-level `memory_type` tag, which none of the verified operations read;
the row-to-Message reconstruction is modelled for well-formed contents.)
-/

/-- One sqlite row. -/
structure Row where
  id : String
  convId : String
  msg : Message
  memoryIndex : Nat
  uploadStatus : Nat

/-- The three tier tables plus the FIFO log of hub upload enqueues
`(membase_account, msg_id)` issued by `add`. -/
structure Store where
  stm : List Row
  ltm : List Row
  profile : List Row
  uploads : List (String × String)

/-- A store with empty tables and an empty upload log. -/
def emptyStore : Store := ⟨[], [], [], []⟩

/-- Tier-name normalization used throughout `sqlite_memory.py`: the `ltm`
and `profile` tables are selected by exact match, everything else goes to
the stm table. -/
def tierOf (t : String) : String :=
  if t = "ltm" then "ltm" else if t = "profile" then "profile" else "stm"

/-- The table selected by a tier name. -/
def tableOf (ty : String) (st : Store) : List Row :=
  if ty = "ltm" then st.ltm else if ty = "profile" then st.profile else st.stm

/-- Replace the table selected by a tier name. -/
def setTable (ty : String) (st : Store) (rows : List Row) : Store :=
  if ty = "ltm" then { st with ltm := rows }
  else if ty = "profile" then { st with profile := rows }
  else { st with stm := rows }

/-- Rows of one `(conversation, tier)` stream, in commit order
(`WHERE conversation_id = ?`). -/
def convRows (st : Store) (ty conv : String) : List Row :=
  (tableOf ty st).filter (fun r => r.convId = conv)

/-- Fold computing the maximum `memory_index` of a row list. -/
def rowIdxMax (rows : List Row) : Nat :=
  rows.foldr (fun r acc => Nat.max r.memoryIndex acc) 0

/-- The `SELECT MAX(memory_index)` read of `add` over the rows of one
conversation: `none` when the filtered table is empty (SQL NULL). -/
def maxIndex (rows : List Row) : Option Nat :=
  if rows.isEmpty then none else some (rowIdxMax rows)

/-- Metadata injection performed by `add` on the serialized dict: set the
`conversation` key (adding it to a dict metadata, or replacing a non-dict
metadata by a fresh dict), then set the `memory_index` key. -/
def injectMeta (conv : String) (idx : Nat) (m : Message) : Message :=
  let kvs :=
    match m.metadata with
    | .obj kvs => jinsert kvs "conversation" (.s conv)
    | _ => [("conversation", JValue.s conv)]
  { m with metadata := .obj (jinsert kvs "memory_index" (.i (idx : Int))) }

/-- Insertion into the `hub_memories` dict of `add` (keyed by hub msg id,
later overwrite wins, insertion order preserved). -/
def hubInsert (l : List (String × (Message × Nat × String))) (k : String)
    (v : Message × Nat × String) : List (String × (Message × Nat × String)) :=
  match l with
  | [] => [(k, v)]
  | (k', v') :: rest =>
      if k' = k then (k, v) :: rest else (k', v') :: hubInsert rest k v

/-- Accumulator of the first loop of `add`: the store after the inserts so
far, the `hub_memories` dict, and the log of assigned indices. -/
structure AddAcc where
  st : Store
  hub : List (String × (Message × Nat × String))
  log : List Nat

namespace SqliteMemory

/-- One iteration of the insert loop of `SqliteMemory.add`: pick the table
from the message type, read `MAX(memory_index)` for this conversation,
assign `max+1` (or `0`), inject metadata, and `INSERT OR REPLACE` keyed on
the primary key `id` (the replacement row gets a fresh `created_at`, hence
goes to the end), recording the entry for the upload loop. -/
def addOne (conv : String) (acc : AddAcc) (m : Message) : AddAcc :=
  let ty := tierOf m.type
  let rows := tableOf ty acc.st
  let idx :=
    match maxIndex (rows.filter (fun r => r.convId = conv)) with
    | some mx => mx + 1
    | none => 0
  let stored := injectMeta conv idx m
  let newRow : Row := ⟨m.id, conv, stored, idx, 0⟩
  let rows' := rows.filter (fun r => ¬(r.id = m.id)) ++ [newRow]
  let msgId :=
    (if m.type = "ltm" then "ltm_"
     else if m.type = "profile" then "profile_" else "") ++
      conv ++ "_" ++ Nat.repr idx
  ⟨setTable ty acc.st rows', hubInsert acc.hub msgId (stored, idx, m.type),
    acc.log ++ [idx]⟩

/-- The second loop of `add`: when `auto_upload_to_hub` is set and the
messages did not come from the hub, enqueue each collected entry to the
hub client and set its row `upload_status = 1`. -/
def uploadLoop (account conv : String) (st : Store)
    (hub : List (String × (Message × Nat × String))) : Store :=
  match hub with
  | [] => st
  | (msgId, (_, idx, mty)) :: rest =>
      let ty := tierOf mty
      let st := { st with uploads := st.uploads ++ [(account, msgId)] }
      let st := setTable ty st ((tableOf ty st).map fun r =>
        if r.convId = conv && r.memoryIndex = idx then
          { r with uploadStatus := 1 }
        else r)
      uploadLoop account conv st rest

/-- Embedding of `SqliteMemory.add` (the conversation id is the value of
`self.conversation_id` of the instance).  Returns the new store and the
list of assigned `memory_index` values, in order. -/
def add (account conv : String) (autoUpload fromHub : Bool)
    (msgs : List Message) (st : Store) : Store × List Nat :=
  let acc := msgs.foldl (addOne conv) ⟨st, [], []⟩
  if autoUpload && !fromHub then
    (uploadLoop account conv acc.st acc.hub, acc.log)
  else (acc.st, acc.log)

end SqliteMemory

/-- A sequence of separate `add` calls, one message per call, collecting
the assigned indices across calls. -/
def addSeq (account conv : String) (autoUpload fromHub : Bool)
    (msgs : List Message) (st : Store) : Store × List Nat :=
  msgs.foldl
    (fun p m =>
      let r := SqliteMemory.add account conv autoUpload fromHub [m] p.1
      (r.1, p.2 ++ r.2))
    (st, [])

/-- The index `add` assigns next for a `(conversation, tier)` stream:
`MAX(memory_index) + 1`, or `0` on an empty stream. -/
def nextIdx (st : Store) (ty conv : String) : Nat :=
  match maxIndex (convRows st ty conv) with
  | some mx => mx + 1
  | none => 0

/-- The `memory_index` values currently stored for a
`(conversation, tier)` stream, in commit order. -/
def idxProj (st : Store) (ty conv : String) : List Nat :=
  (convRows st ty conv).map (fun r => r.memoryIndex)

theorem rowIdxMax_cons (a : Row) (tl : List Row) :
    rowIdxMax (a :: tl) = Nat.max a.memoryIndex (rowIdxMax tl) := rfl

theorem rowIdxMax_mem_le {rows : List Row} {r : Row} (h : r ∈ rows) :
    r.memoryIndex ≤ rowIdxMax rows := by
  induction rows with
  | nil => cases h
  | cons a tl ih =>
      rw [rowIdxMax_cons]
      rcases List.mem_cons.mp h with h | h
      · subst h; exact Nat.le_max_left _ _
      · exact le_trans (ih h) (Nat.le_max_right _ _)

theorem rowIdxMax_le {rows : List Row} {b : Nat}
    (h : ∀ r ∈ rows, r.memoryIndex ≤ b) : rowIdxMax rows ≤ b := by
  induction rows with
  | nil => exact Nat.zero_le _
  | cons a tl ih =>
      rw [rowIdxMax_cons]
      exact Nat.max_le.mpr ⟨h a (List.mem_cons_self a tl),
        ih fun r hr => h r (List.mem_cons_of_mem a hr)⟩

/-- With all stored indices below `k` and, when `k` is positive, `k - 1`
present, the next assigned index is exactly `k`. -/
theorem nextIdx_of_bounds {st : Store} {ty conv : String} {k : Nat}
    (h1 : ∀ i ∈ idxProj st ty conv, i < k)
    (h2 : k ≠ 0 → (k - 1) ∈ idxProj st ty conv) :
    nextIdx st ty conv = k := by
  cases k with
  | zero =>
      have hnil : convRows st ty conv = [] := by
        rcases hx : convRows st ty conv with _ | ⟨r, rest⟩
        · rfl
        · exact absurd (h1 r.memoryIndex
            (by rw [idxProj, hx]; exact List.mem_map_of_mem _ (List.mem_cons_self r rest)))
            (Nat.not_lt_zero _)
      simp [nextIdx, maxIndex, hnil]
  | succ j =>
      obtain ⟨r, hr, hre⟩ := List.mem_map.mp (h2 (Nat.succ_ne_zero j))
      have hne : (convRows st ty conv).isEmpty = false := by
        rcases hx : convRows st ty conv with _ | _
        · rw [hx] at hr; cases hr
        · rfl
      have hmax : rowIdxMax (convRows st ty conv) = j := by
        refine le_antisymm (rowIdxMax_le fun r' hr' => ?_) ?_
        · exact Nat.lt_succ_iff.mp (h1 r'.memoryIndex (List.mem_map_of_mem _ hr'))
        · calc j = r.memoryIndex := by simpa using hre.symm
            _ ≤ _ := rowIdxMax_mem_le hr
      simp [nextIdx, maxIndex, hne, hmax]

/-- Unfolding of `SqliteMemory.add` for a single message. -/
theorem add_single (account conv : String) (au fh : Bool) (m : Message)
    (st : Store) :
    SqliteMemory.add account conv au fh [m] st =
      (let ty := tierOf m.type
       let idx := nextIdx st ty conv
       let stored := injectMeta conv idx m
       let newRow : Row := ⟨m.id, conv, stored, idx, 0⟩
       let st' := setTable ty st
         ((tableOf ty st).filter (fun r => ¬(r.id = m.id)) ++ [newRow])
       let msgId :=
         (if m.type = "ltm" then "ltm_"
          else if m.type = "profile" then "profile_" else "") ++
           conv ++ "_" ++ Nat.repr idx
       if au && !fh then
         (SqliteMemory.uploadLoop account conv st' [(msgId, (stored, idx, m.type))],
           [idx])
       else (st', [idx])) := rfl

theorem tableOf_setTable_same (ty : String) (st : Store) (rows : List Row) :
    tableOf ty (setTable ty st rows) = rows := by
  unfold tableOf setTable
  split_ifs <;> rfl

theorem setTable_uploads (ty : String) (st : Store) (rows : List Row) :
    (setTable ty st rows).uploads = st.uploads := by
  unfold setTable; split_ifs <;> rfl

theorem mem_tableOf_setTable {ty ty2 : String} {st : Store} {rows : List Row}
    {r : Row} (h : r ∈ tableOf ty (setTable ty2 st rows)) :
    r ∈ rows ∨ r ∈ tableOf ty st := by
  simp only [tableOf, setTable] at h ⊢
  split_ifs at h ⊢ <;> simp_all

/-- Mapping an element-wise transformation under a filter and a
projection, when the transformation changes neither the filter decision
nor the projection. -/
theorem map_filter_map_comm {α γ : Type} (g : α → α) (p : α → Bool)
    (f : α → γ) (hp : ∀ r, p (g r) = p r) (hfg : ∀ r, f (g r) = f r) :
    ∀ rows : List α, ((rows.map g).filter p).map f = (rows.filter p).map f := by
  intro rows
  induction rows with
  | nil => rfl
  | cons a tl ih =>
      rw [List.map_cons, List.filter_cons, List.filter_cons, hp a]
      by_cases hc : p a = true
      · rw [if_pos hc, if_pos hc, List.map_cons, List.map_cons, hfg a, ih]
      · rw [if_neg hc, if_neg hc, ih]

/-- Projections that ignore `upload_status` are preserved by the
conditional status flip of the upload loop. -/
theorem statusFlip_pres {γ : Type} (f : Row → γ)
    (hf : ∀ r : Row, f { r with uploadStatus := 1 } = f r) (C : Row → Bool) :
    ∀ r : Row, f (if C r then { r with uploadStatus := 1 } else r) = f r := by
  intro r
  by_cases h : C r = true <;> simp [h, hf]

/-- The upload loop changes only `upload_status` and the upload log:
every projection of a conversation stream that ignores `upload_status` is
unchanged. -/
theorem uploadLoop_convRows_map {γ : Type} (f : Row → γ)
    (hf : ∀ r : Row, f { r with uploadStatus := 1 } = f r)
    (account conv' : String) :
    ∀ (hub : List (String × (Message × Nat × String))) (st : Store)
      (ty conv : String),
      (convRows (SqliteMemory.uploadLoop account conv' st hub) ty conv).map f =
        (convRows st ty conv).map f := by
  intro hub
  induction hub with
  | nil => intro st ty conv; rfl
  | cons e rest ih =>
      intro st ty conv
      obtain ⟨msgId, sm, idx, mty⟩ := e
      rw [SqliteMemory.uploadLoop]
      rw [ih]
      show (convRows (setTable (tierOf mty) _ _) ty conv).map f = _
      simp only [convRows, tableOf, setTable]
      split_ifs <;>
        first
          | rfl
          | exact map_filter_map_comm _ _ f
              (statusFlip_pres (fun r => decide (r.convId = conv))
                (fun _ => rfl) _)
              (statusFlip_pres f hf _) _

/-- The store produced by the insert loop of a single-message `add`
(before the optional upload loop). -/
def addedState (conv : String) (m : Message) (st : Store) : Store :=
  let ty := tierOf m.type
  let idx := nextIdx st ty conv
  setTable ty st
    ((tableOf ty st).filter (fun r => ¬(r.id = m.id)) ++
      [⟨m.id, conv, injectMeta conv idx m, idx, 0⟩])

/-- A single-message `add` always logs exactly the next index. -/
theorem add_snd (account conv : String) (au fh : Bool) (m : Message)
    (st : Store) :
    (SqliteMemory.add account conv au fh [m] st).2 =
      [nextIdx st (tierOf m.type) conv] := by
  cases au <;> cases fh <;> rfl

/-- On every stream projection of indices, the store of a single-message
`add` agrees with `addedState` (the upload loop only flips statuses). -/
theorem add_fst_idxProj (account conv : String) (au fh : Bool) (m : Message)
    (st : Store) (ty' conv'' : String) :
    idxProj (SqliteMemory.add account conv au fh [m] st).1 ty' conv'' =
      idxProj (addedState conv m st) ty' conv'' := by
  cases au <;> cases fh
  · rfl
  · rfl
  · exact uploadLoop_convRows_map (fun r => r.memoryIndex) (fun _ => rfl)
      account conv _ _ ty' conv''
  · rfl

/-- The indices of the touched stream after `addedState`: the surviving
old rows followed by the new index. -/
theorem addedState_idxProj (conv : String) (m : Message) (st : Store)
    (ty : String) (hty : tierOf m.type = ty) :
    idxProj (addedState conv m st) ty conv =
      (((tableOf ty st).filter (fun r => ¬(r.id = m.id))).filter
        (fun r => r.convId = conv)).map (fun r => r.memoryIndex) ++
        [nextIdx st ty conv] := by
  simp [addedState, idxProj, convRows, hty, tableOf_setTable_same,
    List.filter_append]

/-- Adding one message to a stream whose indices are all below `k`, with
`k - 1` attained when `k` is positive: the assigned index is `k`, and the
stream invariant advances to `k + 1`. -/
theorem add_step {st : Store} {ty conv : String} {k : Nat}
    (account : String) (au fh : Bool) (m : Message) (hty : tierOf m.type = ty)
    (h1 : ∀ i ∈ idxProj st ty conv, i < k)
    (h2 : k ≠ 0 → (k - 1) ∈ idxProj st ty conv) :
    (SqliteMemory.add account conv au fh [m] st).2 = [k] ∧
      (∀ i ∈ idxProj (SqliteMemory.add account conv au fh [m] st).1 ty conv,
        i < k + 1) ∧
      k ∈ idxProj (SqliteMemory.add account conv au fh [m] st).1 ty conv := by
  have hidx : nextIdx st ty conv = k := nextIdx_of_bounds h1 h2
  have hfst := add_fst_idxProj account conv au fh m st ty conv
  have hadded := addedState_idxProj conv m st ty hty
  refine ⟨by rw [add_snd, hty, hidx], ?_, ?_⟩
  · intro i hi
    rw [hfst, hadded, hidx] at hi
    rcases List.mem_append.mp hi with hi | hi
    · obtain ⟨r, hr, hre⟩ := List.mem_map.mp hi
      have hr1 : r ∈ (tableOf ty st).filter (fun r => r.convId = conv) := by
        rw [List.mem_filter] at hr ⊢
        exact ⟨(List.mem_filter.mp hr.1).1, hr.2⟩
      have : i < k := hre ▸ h1 _ (List.mem_map_of_mem _ hr1)
      omega
    · simp_all
  · rw [hfst, hadded, hidx]
    exact List.mem_append_right _ (List.mem_singleton.mpr rfl)

/-- The fold underlying `addSeq`, started from an arbitrary accumulated
log, appends the logs of the remaining calls. -/
theorem addSeq_fold (account conv : String) (au fh : Bool) :
    ∀ (msgs : List Message) (s : Store) (l : List Nat),
      List.foldl
        (fun p m =>
          let r := SqliteMemory.add account conv au fh [m] p.1
          (r.1, p.2 ++ r.2)) (s, l) msgs =
        ((addSeq account conv au fh msgs s).1,
          l ++ (addSeq account conv au fh msgs s).2) := by
  intro msgs
  induction msgs with
  | nil => intro s l; simp [addSeq]
  | cons a tl ih =>
      intro s l
      have h1 : addSeq account conv au fh (a :: tl) s =
          List.foldl
            (fun p m =>
              let r := SqliteMemory.add account conv au fh [m] p.1
              (r.1, p.2 ++ r.2))
            ((SqliteMemory.add account conv au fh [a] s).1,
              [] ++ (SqliteMemory.add account conv au fh [a] s).2) tl := rfl
      rw [List.foldl_cons]
      show List.foldl _
        ((SqliteMemory.add account conv au fh [a] s).1,
          l ++ (SqliteMemory.add account conv au fh [a] s).2) tl = _
      rw [ih, h1, ih]
      simp

/-- Generalization of `add_fst_idxProj`: any projection of any stream
that ignores `upload_status` is the same after `add` as after
`addedState`. -/
theorem add_fst_convProj {γ : Type} (f : Row → γ)
    (hf : ∀ r : Row, f { r with uploadStatus := 1 } = f r)
    (account conv : String) (au fh : Bool) (m : Message) (st : Store)
    (ty' conv'' : String) :
    (convRows (SqliteMemory.add account conv au fh [m] st).1 ty' conv'').map f =
      (convRows (addedState conv m st) ty' conv'').map f := by
  cases au <;> cases fh
  · rfl
  · rfl
  · exact uploadLoop_convRows_map f hf account conv _ _ ty' conv''
  · rfl

/-- Removal by id commutes with the `(id, memory_index)` projection. -/
theorem map_pair_filter_id (mid : String) :
    ∀ rows : List Row,
      ((rows.filter (fun r => ¬(r.id = mid))).map
          (fun r => (r.id, r.memoryIndex))) =
        ((rows.map (fun r => (r.id, r.memoryIndex))).filter
          (fun q => ¬(q.1 = mid))) := by
  intro rows
  induction rows with
  | nil => rfl
  | cons a tl ih =>
      by_cases h : a.id = mid <;> simp [List.filter_cons, h] <;>
        simpa using ih

/-- The `(id, memory_index)` pairs of the touched stream after a
single-message `add`: surviving old pairs plus the new assignment. -/
theorem add_pairProj {st : Store} {ty conv : String} (account : String)
    (au fh : Bool) (m : Message) (hty : tierOf m.type = ty) :
    (convRows (SqliteMemory.add account conv au fh [m] st).1 ty conv).map
        (fun r => (r.id, r.memoryIndex)) =
      ((convRows st ty conv).map (fun r => (r.id, r.memoryIndex))).filter
          (fun q => ¬(q.1 = m.id)) ++ [(m.id, nextIdx st ty conv)] := by
  rw [add_fst_convProj (fun r => (r.id, r.memoryIndex)) (fun _ => rfl)]
  have h1 : convRows (addedState conv m st) ty conv =
      ((tableOf ty st).filter (fun r => ¬(r.id = m.id))).filter
          (fun r => r.convId = conv) ++
        [⟨m.id, conv, injectMeta conv (nextIdx st ty conv) m,
          nextIdx st ty conv, 0⟩] := by
    simp [addedState, convRows, hty, tableOf_setTable_same, List.filter_append]
  rw [h1, List.map_append, List.filter_comm, ← convRows, map_pair_filter_id]
  rfl

/-- Decomposition of `addSeq` into the first call and the rest. -/
theorem addSeq_cons (account conv : String) (au fh : Bool) (m : Message)
    (msgs : List Message) (st : Store) :
    addSeq account conv au fh (m :: msgs) st =
      ((addSeq account conv au fh msgs
          (SqliteMemory.add account conv au fh [m] st).1).1,
        (SqliteMemory.add account conv au fh [m] st).2 ++
          (addSeq account conv au fh msgs
            (SqliteMemory.add account conv au fh [m] st).1).2) := by
  show List.foldl _
    ((SqliteMemory.add account conv au fh [m] st).1,
      [] ++ (SqliteMemory.add account conv au fh [m] st).2) msgs = _
  rw [addSeq_fold]
  simp

/-- Folding a sequence of single-message `add` calls from a state whose
stream indices satisfy the invariant at `k`: the logged indices are
`k, k+1, ...`, and the invariant advances by the number of messages. -/
theorem addSeq_log_inv (account conv ty : String) (au fh : Bool) :
    ∀ (msgs : List Message) (st : Store) (k : Nat),
      (∀ m ∈ msgs, tierOf m.type = ty) →
      (∀ i ∈ idxProj st ty conv, i < k) →
      (k ≠ 0 → (k - 1) ∈ idxProj st ty conv) →
      (addSeq account conv au fh msgs st).2 = List.range' k msgs.length ∧
        (∀ i ∈ idxProj (addSeq account conv au fh msgs st).1 ty conv,
          i < k + msgs.length) ∧
        (k + msgs.length ≠ 0 →
          (k + msgs.length - 1) ∈
            idxProj (addSeq account conv au fh msgs st).1 ty conv) := by
  intro msgs
  induction msgs with
  | nil =>
      intro st k hty h1 h2
      exact ⟨rfl, by simpa using h1, by simpa using h2⟩
  | cons m rest ih =>
      intro st k hty h1 h2
      have hmty : tierOf m.type = ty := hty m (List.mem_cons_self m rest)
      obtain ⟨hlog, hb, hmem⟩ := add_step account au fh m hmty h1 h2
      have h2' : (k + 1) ≠ 0 → (k + 1 - 1) ∈
          idxProj (SqliteMemory.add account conv au fh [m] st).1 ty conv :=
        fun _ => by simpa using hmem
      have hrest := ih (SqliteMemory.add account conv au fh [m] st).1 (k + 1)
        (fun m' hm' => hty m' (List.mem_cons_of_mem m hm')) hb h2'
      have e1 : (addSeq account conv au fh (m :: rest) st).1 =
          (addSeq account conv au fh rest
            (SqliteMemory.add account conv au fh [m] st).1).1 := by
        rw [addSeq_cons]
      have e2 : (addSeq account conv au fh (m :: rest) st).2 =
          (SqliteMemory.add account conv au fh [m] st).2 ++
            (addSeq account conv au fh rest
              (SqliteMemory.add account conv au fh [m] st).1).2 := by
        rw [addSeq_cons]
      refine ⟨?_, ?_, ?_⟩
      · rw [e2, hlog, hrest.1]
        rfl
      · intro i hi
        rw [e1] at hi
        have := hrest.2.1 i hi
        simpa [Nat.add_assoc, Nat.add_comm 1 rest.length] using this
      · intro _
        rw [e1]
        have := hrest.2.2 (by omega)
        have harith : k + 1 + rest.length = k + (rest.length + 1) := by omega
        simpa [harith] using this

/-- Folding a sequence of single-message `add` calls with pairwise
distinct ids, none colliding with a stored id: the stored
`(id, memory_index)` pairs extend by the new ids zipped with the next
indices, in commit order. -/
theorem addSeq_pairs (account conv ty : String) (au fh : Bool) :
    ∀ (msgs : List Message) (st : Store) (k : Nat),
      (∀ m ∈ msgs, tierOf m.type = ty) →
      (msgs.map (fun m => m.id)).Nodup →
      (∀ m ∈ msgs, ∀ q ∈ (convRows st ty conv).map
        (fun r => (r.id, r.memoryIndex)), ¬q.1 = m.id) →
      (∀ i ∈ idxProj st ty conv, i < k) →
      (k ≠ 0 → (k - 1) ∈ idxProj st ty conv) →
      (convRows (addSeq account conv au fh msgs st).1 ty conv).map
          (fun r => (r.id, r.memoryIndex)) =
        (convRows st ty conv).map (fun r => (r.id, r.memoryIndex)) ++
          (msgs.map (fun m => m.id)).zip (List.range' k msgs.length) := by
  intro msgs
  induction msgs with
  | nil => intro st k _ _ _ _ _; simp [addSeq]
  | cons m rest ih =>
      intro st k hty hnd hfresh h1 h2
      have hmty : tierOf m.type = ty := hty m (List.mem_cons_self m rest)
      have hidx : nextIdx st ty conv = k := nextIdx_of_bounds h1 h2
      obtain ⟨_, hb, hmem⟩ := add_step account au fh m hmty h1 h2
      have hpair := @add_pairProj st ty conv account au fh m hmty
      have hfilter : ((convRows st ty conv).map
          (fun r => (r.id, r.memoryIndex))).filter (fun q => ¬(q.1 = m.id)) =
          (convRows st ty conv).map (fun r => (r.id, r.memoryIndex)) :=
        List.filter_eq_self.mpr fun q hq => by
          simpa using hfresh m (List.mem_cons_self m rest) q hq
      have hpair' : (convRows (SqliteMemory.add account conv au fh [m] st).1
          ty conv).map (fun r => (r.id, r.memoryIndex)) =
          (convRows st ty conv).map (fun r => (r.id, r.memoryIndex)) ++
            [(m.id, k)] := by
        rw [hpair, hfilter, hidx]
      have hndrest : (rest.map (fun m => m.id)).Nodup :=
        (List.nodup_cons.mp hnd).2
      have hnotin : m.id ∉ rest.map (fun m => m.id) :=
        (List.nodup_cons.mp hnd).1
      have hfresh' : ∀ m' ∈ rest, ∀ q ∈
          (convRows (SqliteMemory.add account conv au fh [m] st).1 ty conv).map
            (fun r => (r.id, r.memoryIndex)), ¬q.1 = m'.id := by
        intro m' hm' q hq
        have hq' : q ∈ (convRows st ty conv).map (fun r => (r.id, r.memoryIndex))
            ++ [(m.id, k)] := by rw [← hpair']; exact hq
        rcases List.mem_append.mp hq' with hq' | hq'
        · exact hfresh m' (List.mem_cons_of_mem m hm') q hq'
        · have : q = (m.id, k) := List.mem_singleton.mp hq'
          subst this
          intro hcontra
          have hc2 : m.id = m'.id := hcontra
          exact hnotin (by rw [hc2]; exact List.mem_map_of_mem (fun m => m.id) hm')
      have h2' : (k + 1) ≠ 0 → (k + 1 - 1) ∈
          idxProj (SqliteMemory.add account conv au fh [m] st).1 ty conv :=
        fun _ => by simpa using hmem
      have hrest := ih (SqliteMemory.add account conv au fh [m] st).1 (k + 1)
        (fun m' hm' => hty m' (List.mem_cons_of_mem m hm')) hndrest hfresh' hb h2'
      have e1 : (addSeq account conv au fh (m :: rest) st).1 =
          (addSeq account conv au fh rest
            (SqliteMemory.add account conv au fh [m] st).1).1 := by
        rw [addSeq_cons]
      rw [e1, hrest, hpair']
      simp [List.range'_succ]

/-- C2: for every sequence of add calls on the same conversation and
tier, starting from an empty store, the assigned indices are exactly
`0, 1, ..., N-1` in commit order; and with pairwise distinct message ids
the stored stream holds exactly those indices, in the order the writes
were committed. -/
theorem c2_index_assignment (account conv ty : String) (au fh : Bool)
    (msgs : List Message) (hty : ∀ m ∈ msgs, tierOf m.type = ty) :
    (addSeq account conv au fh msgs emptyStore).2 = List.range msgs.length ∧
      ((msgs.map (fun m => m.id)).Nodup →
        idxProj (addSeq account conv au fh msgs emptyStore).1 ty conv =
          List.range msgs.length) := by
  have hconv : convRows emptyStore ty conv = [] := by
    simp [convRows, tableOf, emptyStore]
  have hempty : idxProj emptyStore ty conv = [] := by
    simp [idxProj, hconv]
  constructor
  · have := (addSeq_log_inv account conv ty au fh msgs emptyStore 0 hty
      (by simp [hempty]) (by simp)).1
    rw [this, List.range_eq_range' msgs.length]
  · intro hnd
    have hpairs := addSeq_pairs account conv ty au fh msgs emptyStore 0 hty hnd
      (by simp [hconv]) (by simp [hempty]) (by simp)
    have hsnd : idxProj (addSeq account conv au fh msgs emptyStore).1 ty conv =
        ((convRows (addSeq account conv au fh msgs emptyStore).1 ty conv).map
          (fun r => (r.id, r.memoryIndex))).map (fun q => q.2) := by
      rw [idxProj, List.map_map]
      rfl
    rw [hsnd, hpairs, hconv]
    have hlen : (List.range' 0 msgs.length).length ≤
        (msgs.map (fun m => m.id)).length := by simp
    simp only [List.map_nil, List.nil_append]
    show List.map Prod.snd
      ((msgs.map (fun m => m.id)).zip (List.range' 0 msgs.length)) = _
    rw [List.map_snd_zip _ _ hlen, List.range_eq_range']

/-- Witness for C2: three stm messages with distinct ids get indices
`0, 1, 2`, stored and logged in order. -/
theorem c2_index_assignment_witness :
    (addSeq "acct" "cv" false false
      [⟨"mA", "u", .s "a", "user", .null, .null, "", "stm"⟩,
       ⟨"mB", "u", .s "b", "user", .null, .null, "", "stm"⟩,
       ⟨"mC", "u", .s "c", "user", .null, .null, "", "stm"⟩]
      emptyStore).2 = List.range 3 ∧
    idxProj (addSeq "acct" "cv" false false
      [⟨"mA", "u", .s "a", "user", .null, .null, "", "stm"⟩,
       ⟨"mB", "u", .s "b", "user", .null, .null, "", "stm"⟩,
       ⟨"mC", "u", .s "c", "user", .null, .null, "", "stm"⟩]
      emptyStore).1 "stm" "cv" = List.range 3 := by
  have h := c2_index_assignment "acct" "cv" "stm" false false
    [⟨"mA", "u", .s "a", "user", .null, .null, "", "stm"⟩,
     ⟨"mB", "u", .s "b", "user", .null, .null, "", "stm"⟩,
     ⟨"mC", "u", .s "c", "user", .null, .null, "", "stm"⟩]
    (by intro m hm; fin_cases hm <;> rfl)
  exact ⟨h.1, h.2 (by decide)⟩

/-- A message of the stm tier with an id and content derived from its
sequence number, as a foreground caller would create it. -/
def mkStm (i : Nat) : Message :=
  ⟨"m" ++ Nat.repr i, "user", .s ("c" ++ Nat.repr i), "user", .null, .null,
    "", "stm"⟩

theorem addOne_fold_uploads (conv : String) :
    ∀ (msgs : List Message) (acc : AddAcc),
      ((msgs.foldl (SqliteMemory.addOne conv) acc).st).uploads =
        acc.st.uploads := by
  intro msgs
  induction msgs with
  | nil => intro acc; rfl
  | cons m rest ih =>
      intro acc
      rw [List.foldl_cons, ih]
      show (setTable _ acc.st _).uploads = _
      rw [setTable_uploads]

theorem tableOf_setTable_cases (ty ty2 : String) (st : Store)
    (rows : List Row) :
    (tableOf ty (setTable ty2 st rows) = rows ∧
      tableOf ty st = tableOf ty2 st) ∨
      tableOf ty (setTable ty2 st rows) = tableOf ty st := by
  simp only [tableOf, setTable]
  split_ifs <;> simp

theorem addOne_st_mem (conv : String) (acc : AddAcc) (m : Message)
    (ty : String) (r : Row)
    (h : r ∈ tableOf ty (SqliteMemory.addOne conv acc m).st) :
    r ∈ tableOf ty acc.st ∨ r.uploadStatus = 0 := by
  have h' : r ∈ tableOf ty (setTable (tierOf m.type) acc.st
      ((tableOf (tierOf m.type) acc.st).filter (fun r => ¬(r.id = m.id)) ++
        [⟨m.id, conv,
          injectMeta conv (nextIdx acc.st (tierOf m.type) conv) m,
          nextIdx acc.st (tierOf m.type) conv, 0⟩])) := h
  rcases tableOf_setTable_cases ty (tierOf m.type) acc.st
      ((tableOf (tierOf m.type) acc.st).filter (fun r => ¬(r.id = m.id)) ++
        [⟨m.id, conv,
          injectMeta conv (nextIdx acc.st (tierOf m.type) conv) m,
          nextIdx acc.st (tierOf m.type) conv, 0⟩]) with ⟨he, hsame⟩ | he
  · rw [he] at h'
    rcases List.mem_append.mp h' with h'' | h''
    · exact Or.inl (hsame ▸ List.mem_of_mem_filter h'')
    · right
      rw [List.mem_singleton.mp h'']
  · exact Or.inl (he ▸ h')

theorem addOne_fold_status (conv : String) :
    ∀ (msgs : List Message) (acc : AddAcc) (ty : String) (r : Row),
      r ∈ tableOf ty ((msgs.foldl (SqliteMemory.addOne conv) acc).st) →
      r ∈ tableOf ty acc.st ∨ r.uploadStatus = 0 := by
  intro msgs
  induction msgs with
  | nil => intro acc ty r h; exact Or.inl h
  | cons m rest ih =>
      intro acc ty r h
      rw [List.foldl_cons] at h
      rcases ih _ ty r h with h' | h'
      · exact addOne_st_mem conv acc m ty r h'
      · exact Or.inr h'

/-- C10: an `add` with `from_hub = true` persists and indexes exactly
as a plain add does, enqueues nothing to the hub, and the rows it creates
keep `upload_status = 0`, even with `auto_upload_to_hub` enabled. -/
theorem c10_from_hub_no_upload (account conv : String) (msgs : List Message)
    (st : Store) :
    (SqliteMemory.add account conv true true msgs st).2 =
      (SqliteMemory.add account conv true false msgs st).2 ∧
    (SqliteMemory.add account conv true true msgs st).1.uploads = st.uploads ∧
    SqliteMemory.add account conv true true msgs st =
      SqliteMemory.add account conv false false msgs st ∧
    (∀ (ty : String) (r : Row),
      r ∈ tableOf ty (SqliteMemory.add account conv true true msgs st).1 →
      r ∈ tableOf ty st ∨ r.uploadStatus = 0) := by
  refine ⟨rfl, ?_, rfl, ?_⟩
  · show ((msgs.foldl (SqliteMemory.addOne conv) ⟨st, [], []⟩).st).uploads = _
    rw [addOne_fold_uploads]
  · intro ty r h
    exact addOne_fold_status conv msgs ⟨st, [], []⟩ ty r h

/-- Witness for C10 at a concrete input: a from-hub add of one message
enqueues nothing. -/
theorem c10_from_hub_no_upload_witness :
    (SqliteMemory.add "acct" "cv" true true [mkStm 0] emptyStore).1.uploads =
      emptyStore.uploads :=
  (c10_from_hub_no_upload "acct" "cv" [mkStm 0] emptyStore).2.1

/-!
The LTMemory consolidation scheduler
(`LTMemory._background_task` in `membase/memory/lt_memory.py`).

`_background_task` drives a conversation-keyed store
(`self._memory.get(conv_id, ...)`, `self._memory.add(conv_id, ...)`,
`self._memory.get_all_conversation_ids()`).  The `SqliteMemory` in this
tree keeps the conversation id per instance, so the calls map to the
embedded operations with the conversation id passed through; only
`get_all_conversation_ids` has no counterpart at all and is modelled from
the spec below.  The OpenAI calls of the two summarization wrappers are an
external collaborator and are modelled as an oracle; uuid4 message ids
are modelled by a fresh-id counter threaded through the state.
-/

/-- Outcome of the POST round-trip attempted by the drain worker for one
queued item. -/
inductive UploadOutcome where
  | ok
  | requestError
  | otherError

/-- What the worker leaves behind for one item: whether the completion
event of the item was signaled and whether the queue slot was marked done
(the `finally` block). -/
structure WorkerResult where
  eventSet : Bool
  taskDone : Bool

/-- Embedding of the per-item body of `Client._process_upload_queue`:
`event.set()` is reached only after a successful round-trip; both
exception handlers log and fall through to `finally` without signaling
the event. -/
def processUploadTask (outcome : UploadOutcome) : WorkerResult :=
  match outcome with
  | .ok => ⟨true, true⟩
  | .requestError => ⟨false, true⟩
  | .otherError => ⟨false, true⟩

/-- Embedding of the `wait=True` path of `Client.upload_hub`: the caller
blocks on `event.wait()` until the worker signals the event; `none`
models blocking forever. -/
def uploadHubWait (outcome : UploadOutcome) : Option String :=
  if (processUploadTask outcome).eventSet then some "completed" else none

/-- C6, counterexample: for an item whose upload attempt fails, the
worker does not signal the completion event, so an `enqueue` with
`wait=true` never returns — the claim says the event is signaled in both
the success and the failure case. -/
theorem c6_wait_counterexample :
    (processUploadTask .requestError).eventSet = false ∧
    uploadHubWait .requestError = none := ⟨rfl, rfl⟩

/-- C6, amended: the worker signals the completion event of an item exactly
when the upload attempt succeeds; on either failure path the event is
never set and a `wait=true` caller blocks forever (the queue slot is
still marked done in all cases). -/
theorem c6_wait_amended (o : UploadOutcome) :
    ((processUploadTask o).eventSet = true ↔ o = .ok) ∧
    (processUploadTask o).taskDone = true ∧
    ((uploadHubWait o).isSome ↔ o = .ok) := by
  cases o <;> simp [processUploadTask, uploadHubWait]

/-- How the message payload of `upload_hub` looks to the bucket
defaulting logic: not a string, a string that is not JSON, or a string
holding a JSON object. -/
inductive Payload where
  | nonStr
  | strNonJson (raw : String)
  | strJson (kvs : List (String × JValue))

/-- Embedding of the bucket choice of `Client.upload_hub` (its first
lines): `default_bucket` is the owner, overridden by the process-wide
`MEMBASE_ID` when that is non-empty; an explicit bucket argument wins;
otherwise the declared `name` value of a JSON payload wins when the key
is present. -/
def computeBucket (membaseId owner : String) (bucket : Option String)
    (msg : Payload) : JValue :=
  let dflt : JValue := if ¬(membaseId = "") then .s membaseId else .s owner
  match bucket with
  | some b => .s b
  | none =>
      match msg with
      | .strJson kvs =>
          match jlookup kvs "name" with
          | some v => v
          | none => dflt
      | _ => dflt

/-- C9, counterexample: with the process-wide hub identity set and the
payload carrying no name field, the bucket is the hub identity even
though the owner is available — the claim says the owner identity takes
precedence and the hub identity is only a last resort. -/
theorem c9_bucket_counterexample :
    computeBucket "hub_identity" "alice" none
      (.strJson [("content", .s "x")]) = .s "hub_identity" ∧
    ¬(computeBucket "hub_identity" "alice" none
      (.strJson [("content", .s "x")]) = .s "alice") := by
  refine ⟨rfl, fun h => ?_⟩
  have h' : JValue.s "hub_identity" = JValue.s "alice" := h
  injection h' with h2
  exact absurd h2 (by decide)

/-- C9, amended: an explicit bucket wins; else the declared
name value wins; else the bucket is the process-wide hub identity
override whenever that is set, and the owner identity only when it is
not. -/
theorem c9_bucket_amended (mid owner b : String)
    (kvs : List (String × JValue)) (v : JValue) (p : Payload) (raw : String) :
    computeBucket mid owner (some b) p = .s b ∧
    (jlookup kvs "name" = some v →
      computeBucket mid owner none (.strJson kvs) = v) ∧
    (jlookup kvs "name" = none →
      computeBucket mid owner none (.strJson kvs) =
        (if ¬(mid = "") then .s mid else .s owner)) ∧
    computeBucket mid owner none .nonStr =
      (if ¬(mid = "") then .s mid else .s owner) ∧
    computeBucket mid owner none (.strNonJson raw) =
      (if ¬(mid = "") then .s mid else .s owner) := by
  refine ⟨rfl, ?_, ?_, rfl, rfl⟩ <;> intro h <;> simp [computeBucket, h]

/-- Witness for C9 at a concrete input: a payload with a declared name
field names the bucket. -/
theorem c9_bucket_amended_witness :
    computeBucket "hub_identity" "alice" none
      (.strJson [("name", .s "bob")]) = .s "bob" :=
  (c9_bucket_amended "hub_identity" "alice" "x" [("name", .s "bob")]
    (.s "bob") .nonStr "raw").2.1 rfl

end Membase
